import Mathlib

/-!
Verification of the riemann-ether cryptographic core (`ether/crypto.py`).

Shallow embedding conventions:
* Python `bytes` values are `List Nat` with every element `< 256`.
* Python unbounded `int` is `Nat` where the source only handles non-negative
  values, and `Int` where negative values can occur (signature components).
  Python's `%` on ints with a positive modulus agrees with `Int.emod`,
  which is the `%` of `Int` in Lean.
* The external collaborators (the Keccak-256 primitive from pycryptodomex and
  the ECDSA engine from eth_keys) are not part of this repository; they are
  modelled as parameters (a hash function argument, and an `EcdsaEngine`
  structure whose interface contract comes from the specification).
* Python loops are embedded with an explicit fuel argument that strictly
  bounds the number of iterations, so every definition is executable and
  kernel-reducible.
-/

set_option maxRecDepth 20000

/-! ## Byte-string helpers -/

/-- Big-endian interpretation of a byte list, as in Python
`int.from_bytes(bs, 'big')`. -/
def fromBytesBE (bs : List Nat) : Nat :=
  bs.foldl (fun acc b => acc * 256 + b) 0

/-- Big-endian encoding on exactly `n` bytes, as in Python
`v.to_bytes(n, 'big')`.  (Python raises OverflowError when `v >= 256 ^ n`;
the source only calls this with values that fit, which the theorems below
establish where it matters.) -/
def toBytesBE : Nat → Nat → List Nat
  | 0, _ => []
  | n + 1, v => toBytesBE n (v / 256) ++ [v % 256]

/-- Last `n` elements of a list, as in Python `l[-n:]`. -/
def lastN (n : Nat) (l : List Nat) : List Nat :=
  l.drop (l.length - n)

/-- Lowercase hex digit for a value below 16. -/
def hexChar (d : Nat) : Char :=
  Char.ofNat (if d < 10 then 48 + d else 87 + d)

/-- Lowercase hex rendering of a byte list, as in Python `bs.hex()`. -/
def bytesToHex (bs : List Nat) : String :=
  String.mk (bs.foldr (fun b acc => hexChar (b / 16) :: hexChar (b % 16) :: acc) [])

/-! ## `pow_mod` (src/ether/crypto.py lines 27-38)

The Python source is a square-and-multiply `while y:` loop.  It is embedded
with a fuel argument: the loop halves `y` each iteration, so it runs at most
`y` times and fuel `y + 1` can never be exhausted. -/

/-- Loop body of `pow_mod`: while `y` is nonzero, multiply `number` by `x`
when the low bit of `y` is set, shift `y` right and square `x`, everything
modulo `z`. -/
def powModFuel : Nat → Nat → Nat → Nat → Nat → Nat
  | 0, _, _, _, number => number
  | fuel + 1, x, y, z, number =>
    if y = 0 then number
    else
      powModFuel fuel (x * x % z) (y >>> 1) z
        (if y &&& 1 = 1 then number * x % z else number)

/-- Embedding of `pow_mod(x, y, z)`: returns `(x^y) mod z` by
square-and-multiply, starting from `number = 1`. -/
def pow_mod (x y z : Nat) : Nat :=
  powModFuel (y + 1) x y z 1

/-! ## secp256k1 point codec (src/ether/crypto.py lines 41-60) -/

/-- The secp256k1 field prime, as the literal in `uncompress_pubkey`. -/
def secpP : Nat :=
  0xfffffffffffffffffffffffffffffffffffffffffffffffffffffffefffffc2f

/-- Embedding of `uncompress_pubkey(pubkey)`: takes a compressed pubkey,
returns the uncompressed pubkey (64 bytes).  `parity` is `pubkey[0] - 2` as
a Python int, which is negative for prefix bytes 0 and 1, and `-y % p` is
Python's euclidean remainder, hence `Int` `%` (`Int.emod`). -/
def uncompress_pubkey (pubkey : List Nat) : List Nat :=
  let parity : Int := (pubkey.headD 0 : Int) - 2
  let x : Nat := fromBytesBE (pubkey.drop 1)
  let a : Nat := (pow_mod x 3 secpP + 7) % secpP
  let y : Nat := pow_mod a ((secpP + 1) / 4) secpP
  let y2 : Nat :=
    if ((y % 2 : Nat) : Int) ≠ parity then ((-(y : Int)) % (secpP : Int)).toNat
    else y
  toBytesBE 32 x ++ toBytesBE 32 y2

/-- Embedding of `compress_pubkey(pubkey)`: takes an uncompressed pubkey
(65 or 64 bytes), returns the 33-byte compressed representation. -/
def compress_pubkey (pubkey : List Nat) : List Nat :=
  let pub := if pubkey.length = 65 then pubkey.drop 1 else pubkey
  let parity := (pub.getLastD 0 &&& 1) + 2
  parity :: pub.take 32

/-- The y-candidate computed inside `uncompress_pubkey` for abscissa `x`
before the parity adjustment, in the source's own terms. -/
def candY (x : Nat) : Nat :=
  pow_mod ((pow_mod x 3 secpP + 7) % secpP) ((secpP + 1) / 4) secpP

/-- Follows the wording of the specification (section 4.2) for the adjusted
y-coordinate: candidate `y = ((x^3 + 7) mod p)^((p+1)/4) mod p`, replaced by
the mod-p negation of `y` (`p - y`, taken mod p) when `y mod 2` differs from
the parity target `prefix - 2`. -/
def specSqrtY (b x : Nat) : Nat :=
  let y := ((x ^ 3 + 7) % secpP) ^ ((secpP + 1) / 4) % secpP
  if y % 2 ≠ b - 2 then (secpP - y) % secpP else y

/-- Modelled from the spec: the boundary behavior demanded in section 8 for
`uncompress_pubkey` — a 33-byte buffer whose prefix byte is neither 0x02 nor
0x03 must fail with InvalidKeyError (`none` here), valid prefixes decompress
normally. -/
def uncompressChecked (pk : List Nat) : Option (List Nat) :=
  if (pk.headD 0 = 2 ∨ pk.headD 0 = 3) ∧ pk.length = 33 then
    some (uncompress_pubkey pk)
  else none

/-! ## Keccak-parametrized address derivation (src/ether/crypto.py lines 70-77)

`keccak256` delegates to the external pycryptodomex primitive; all consumers
take the hash function as a parameter `keccak`. -/

/-- Embedding of `pub_to_addr(pubkey)`: the address string is `0x` followed
by the lowercase hex of the last 20 bytes of `keccak256(pubkey)`.  The source
hashes its argument exactly as given. -/
def pub_to_addr (keccak : List Nat → List Nat) (pubkey : List Nat) : String :=
  "0x" ++ bytesToHex (lastN 20 (keccak pubkey))

/-- Follows the wording of the specification (section 4.4) for
`public_to_address`: last 20 bytes of `keccak256(pub_bytes_without_04_prefix)`
for a well-formed 64- or 65-byte public key, failure (`none`) otherwise. -/
def pub_to_addr_spec (keccak : List Nat → List Nat) (pub : List Nat) :
    Option String :=
  if pub.length = 64 then some ("0x" ++ bytesToHex (lastN 20 (keccak pub)))
  else if pub.length = 65 ∧ pub.headD 0 = 4 then
    some ("0x" ++ bytesToHex (lastN 20 (keccak (pub.drop 1))))
  else none

/-! ## The external ECDSA engine (eth_keys) -/

/-- Modelled from the spec: `EthSig` is declared in `ether/ether_types.py`,
which is not included in the sources; section 3 of the specification defines
it as the ordered triple `(v, r, s)` of Python ints. -/
abbrev EthSig : Type := Int × Int × Int

/-- Interface of the external ECDSA primitive library (eth_keys), the
out-of-scope collaborator: derive a public key from a private key, sign a
digest, recover a public key from a signature and digest. -/
structure EcdsaEngine where
  privToPub : List Nat → List Nat
  signHash : List Nat → List Nat → EthSig
  recover : EthSig → List Nat → List Nat

/-- Modelled from the spec: the contract of the external ECDSA primitive
(sections 4.5, 4.6 and 6).  The signer outputs the ecosystem's recovery id v
directly, while the recovery primitive expects the complementary bit
`v' = (v + 1) mod 2`; invoking recovery with the correctly normalized v and
the same digest returns the signer's public key. -/
def EngineContract (E : EcdsaEngine) : Prop :=
  ∀ digest privkey : List Nat,
    E.recover ((((E.signHash digest privkey).1 + 1) % 2 : Int),
        (E.signHash digest privkey).2.1, (E.signHash digest privkey).2.2)
      digest = E.privToPub privkey

/-! ## Key derivation and signing facade (src/ether/crypto.py lines 63-142) -/

/-- Embedding of `priv_to_pub(privkey)`: delegates to the external engine. -/
def priv_to_pub (E : EcdsaEngine) (privkey : List Nat) : List Nat :=
  E.privToPub privkey

/-- Embedding of `priv_to_addr(privkey)`. -/
def priv_to_addr (keccak : List Nat → List Nat) (E : EcdsaEngine)
    (privkey : List Nat) : String :=
  pub_to_addr keccak (priv_to_pub E privkey)

/-- Embedding of `recover_pubkey(signature, digest)`: normalizes
`v` to `(v + 1) % 2` before invoking the external recovery primitive. -/
def recover_pubkey (E : EcdsaEngine) (signature : EthSig) (digest : List Nat) :
    List Nat :=
  let normalized_v : Int := (signature.1 + 1) % 2
  E.recover (normalized_v, signature.2.1, signature.2.2) digest

/-- Embedding of `recover_address(signature, digest)`. -/
def recover_address (keccak : List Nat → List Nat) (E : EcdsaEngine)
    (signature : EthSig) (digest : List Nat) : String :=
  pub_to_addr keccak (recover_pubkey E signature digest)

/-- Embedding of `sign_hash(digest, privkey)`: delegates to the external
signer and passes its `(v, r, s)` through unchanged. -/
def sign_hash (E : EcdsaEngine) (digest privkey : List Nat) : EthSig :=
  E.signHash digest privkey

/-- Embedding of `sign(message, privkey, algo)`; the source's default
argument `algo = keccak256` is supplied explicitly at call sites. -/
def sign (E : EcdsaEngine) (message privkey : List Nat)
    (algo : List Nat → List Nat) : EthSig :=
  sign_hash E (algo message) privkey

/-- The byte literal `b'\x19Ethereum Signed Message:\n'` from
`sign_message` (26 bytes). -/
def ethMessageHeader : List Nat :=
  [0x19, 69, 116, 104, 101, 114, 101, 117, 109, 32, 83, 105, 103, 110, 101,
   100, 32, 77, 101, 115, 115, 97, 103, 101, 58, 10]

/-- Embedding of `sign_message(message, privkey, algo)`: the source joins the
header literal with the raw message and calls `sign(prefixed, privkey)`
WITHOUT forwarding `algo`, so `sign` runs with its default `keccak256` and
the `algo` binder is unused. -/
def sign_message (keccak : List Nat → List Nat) (E : EcdsaEngine)
    (message privkey : List Nat) (_algo : List Nat → List Nat) : EthSig :=
  let prefixed := ethMessageHeader ++ message
  sign E prefixed privkey keccak

/-- Follows the wording of the specification (section 4.6) for
`sign_message`: the hash function parameter is applied to the message to get
the inner digest, the header literal is prepended, and the result is hashed
again with keccak256 and signed. -/
def sign_message_spec (keccak : List Nat → List Nat) (E : EcdsaEngine)
    (message privkey : List Nat) (algo : List Nat → List Nat) : EthSig :=
  sign_hash E (keccak (ethMessageHeader ++ algo message)) privkey

/-! ## DER encoding (src/ether/crypto.py lines 96-116) -/

/-- Fueled bit length: `bitLenFuel f n` is Python's `n.bit_length()` whenever
`n < f` (the recursion halves `n`, so fuel `n + 1` always suffices). -/
def bitLenFuel : Nat → Nat → Nat
  | 0, _ => 0
  | f + 1, n => if n = 0 then 0 else bitLenFuel f (n / 2) + 1

/-- Python's `n.bit_length()` for a non-negative int. -/
def bitLen (n : Nat) : Nat := bitLenFuel (n + 1) n

/-- The bytes produced by `_der_minimal_int` on a non-negative input:
`number.to_bytes((number.bit_length() + 7) // 8, 'big')`. -/
def derIntBytes (n : Nat) : List Nat := toBytesBE ((bitLen n + 7) / 8) n

/-- Embedding of `_der_minimal_int(number)`: raises (ValueError) on negative
input, otherwise the minimal big-endian encoding. -/
def der_minimal_int (number : Int) : Except String (List Nat) :=
  if number < 0 then Except.error "Negative number in signature"
  else Except.ok (derIntBytes number.toNat)

/-- Embedding of `sig_to_der(signature)`:
`0x30 | b1 | 0x02 | b2 | r | 0x02 | b3 | s`. -/
def sig_to_der (signature : EthSig) : Except String (List Nat) :=
  match der_minimal_int signature.2.1, der_minimal_int signature.2.2 with
  | Except.error e, _ => Except.error e
  | Except.ok _, Except.error e => Except.error e
  | Except.ok r, Except.ok s =>
    let enc_r := [0x02, r.length] ++ r
    let enc_s := [0x02, s.length] ++ s
    Except.ok ([0x30, enc_r.length + enc_s.length] ++ enc_r ++ enc_s)

/-! ## Concrete instances used by the witnesses -/

/-- Identity stand-in for the hash parameter. -/
def idHash : List Nat → List Nat := fun bs => bs

/-- Constant stand-in for the hash-function argument. -/
def constNilHash : List Nat → List Nat := fun _ => []

/-- Length-sensitive stand-in for the hash parameter: a 32-byte digest
that depends only on the input length. -/
def lenHash : List Nat → List Nat := fun bs => List.replicate 32 (bs.length % 256)

/-- Concrete ECDSA engine satisfying `EngineContract`: the public key is the
big-endian value of the private key, the signer stores it in `r` with `v = 0`,
and recovery returns it when handed the expected normalized `v = 1`. -/
def witnessEngine : EcdsaEngine where
  privToPub privkey := [fromBytesBE privkey]
  signHash _digest privkey := (0, (fromBytesBE privkey : Int), 0)
  recover vrs _digest := if vrs.1 = 1 then [vrs.2.1.toNat] else []

/-- Concrete ECDSA engine whose signature depends injectively on the digest,
used to separate signing paths that hash different data. -/
def digestEngine : EcdsaEngine where
  privToPub _ := []
  signHash digest _ := (0, (fromBytesBE digest : Int), 0)
  recover _ _ := []

/-- The 32 big-endian bytes of the secp256k1 generator's x-coordinate. -/
def genXBytes : List Nat :=
  [121, 190, 102, 126, 249, 220, 187, 172, 85, 160, 98, 149, 206, 135, 11, 7,
   2, 155, 252, 219, 45, 206, 40, 217, 89, 242, 129, 91, 22, 248, 23, 152]

/-- The 32 big-endian bytes of the secp256k1 generator's y-coordinate. -/
def genYBytes : List Nat :=
  [72, 58, 218, 119, 38, 163, 196, 101, 93, 164, 251, 252, 14, 17, 8, 168,
   253, 23, 180, 72, 166, 133, 84, 25, 156, 71, 208, 143, 251, 16, 212, 184]

/-! ## Basic lemmas about the helpers -/

theorem toBytesBE_length : ∀ (n v : Nat), (toBytesBE n v).length = n := by
  intro n
  induction n with
  | zero => intro v; rfl
  | succ m ih => intro v; simp [toBytesBE, ih]

theorem fromBytesBE_concat (l : List Nat) (c : Nat) :
    fromBytesBE (l ++ [c]) = fromBytesBE l * 256 + c := by
  simp [fromBytesBE, List.foldl_append]

theorem toBytesBE_fromBytesBE :
    ∀ (n : Nat) (xs : List Nat), xs.length = n → (∀ c ∈ xs, c < 256) →
      toBytesBE n (fromBytesBE xs) = xs := by
  intro n
  induction n with
  | zero =>
    intro xs hlen _
    rw [List.length_eq_zero] at hlen
    subst hlen; rfl
  | succ m ih =>
    intro xs hlen hbytes
    have hne : xs ≠ [] := by
      intro h; subst h; simp at hlen
    have hsplit : xs.dropLast ++ [xs.getLast hne] = xs :=
      List.dropLast_append_getLast hne
    set ys := xs.dropLast with hys
    set c := xs.getLast hne with hc
    have hcmem : c ∈ xs := List.getLast_mem hne
    have hclt : c < 256 := hbytes c hcmem
    have hylen : ys.length = m := by
      rw [hys, List.length_dropLast, hlen]
      omega
    have hybytes : ∀ d ∈ ys, d < 256 := by
      intro d hd
      apply hbytes
      rw [← hsplit]
      exact List.mem_append_left _ hd
    rw [← hsplit, fromBytesBE_concat]
    show toBytesBE (m + 1) (fromBytesBE ys * 256 + c) = ys ++ [c]
    have hdiv : (fromBytesBE ys * 256 + c) / 256 = fromBytesBE ys := by omega
    have hmod : (fromBytesBE ys * 256 + c) % 256 = c := by omega
    simp only [toBytesBE, hdiv, hmod]
    rw [ih ys hylen hybytes]

theorem getLastD_concat_nat (l : List Nat) (a d : Nat) :
    (l ++ [a]).getLastD d = a := by
  simp

theorem take_length_append (l₁ l₂ : List Nat) : (l₁ ++ l₂).take l₁.length = l₁ := by
  induction l₁ with
  | nil => rfl
  | cons x t ih => simp [ih]

/-! ## Characterization of `pow_mod` -/

theorem powModFuel_eq :
    ∀ (f x y num z : Nat), y < f → 0 < z →
      powModFuel f x y z num = if y = 0 then num else num * x ^ y % z := by
  intro f
  induction f with
  | zero => intro x y num z hy _; omega
  | succ g ih =>
    intro x y num z hy hz
    by_cases h0 : y = 0
    · simp [powModFuel, h0]
    · have hrec : y >>> 1 = y / 2 := Nat.shiftRight_one y
      have hand : y &&& 1 = y % 2 := Nat.and_one_is_mod y
      have hlt : y / 2 < g := by omega
      simp only [powModFuel, if_neg h0, hrec, hand]
      rw [ih _ _ _ _ hlt hz]
      by_cases hhalf : y / 2 = 0
      · have hy1 : y = 1 := by omega
        subst hy1
        simp [pow_one]
      · rw [if_neg hhalf]
        by_cases hodd : y % 2 = 1
        · rw [if_pos hodd]
          have hy2 : 2 * (y / 2) + 1 = y := by omega
          have key : (num * x % z) * ((x * x % z) ^ (y / 2)) ≡
              (num * x) * ((x * x) ^ (y / 2)) [MOD z] :=
            Nat.ModEq.mul (Nat.mod_modEq _ _) ((Nat.mod_modEq _ _).pow _)
          have e2 : (num * x) * ((x * x) ^ (y / 2)) = num * x ^ y := by
            rw [← pow_two, ← pow_mul, mul_assoc, ← pow_succ', hy2]
          rw [e2] at key
          exact key
        · rw [if_neg hodd]
          have hy2 : 2 * (y / 2) = y := by omega
          have key : num * ((x * x % z) ^ (y / 2)) ≡
              num * ((x * x) ^ (y / 2)) [MOD z] :=
            Nat.ModEq.mul_left num ((Nat.mod_modEq _ _).pow _)
          have e2 : num * ((x * x) ^ (y / 2)) = num * x ^ y := by
            rw [← pow_two, ← pow_mul, hy2]
          rw [e2] at key
          exact key

theorem pow_mod_eq (x y z : Nat) (hz : 0 < z) :
    pow_mod x y z = if y = 0 then 1 else x ^ y % z := by
  have h := powModFuel_eq (y + 1) x y 1 z (by omega) hz
  simpa [pow_mod] using h

theorem pow_mod_zero_exp (x z : Nat) : pow_mod x 0 z = 1 := rfl

theorem pow_mod_pos_eq (x y z : Nat) (hz : 0 < z) (hy : y ≠ 0) :
    pow_mod x y z = x ^ y % z := by
  rw [pow_mod_eq x y z hz, if_neg hy]

theorem pow_mod_lt (x y z : Nat) (hz : 1 < z) : pow_mod x y z < z := by
  rw [pow_mod_eq x y z (by omega)]
  by_cases h : y = 0
  · simpa [h] using hz
  · rw [if_neg h]
    exact Nat.mod_lt _ (by omega)

/-! ## Structure of `uncompress_pubkey` and `compress_pubkey` -/

theorem uncompress_pubkey_cons (b : Nat) (xs : List Nat) :
    uncompress_pubkey (b :: xs) =
      toBytesBE 32 (fromBytesBE xs) ++
        toBytesBE 32
          (if ((candY (fromBytesBE xs) % 2 : Nat) : Int) ≠ (b : Int) - 2 then
            ((-(candY (fromBytesBE xs) : Int)) % (secpP : Int)).toNat
          else candY (fromBytesBE xs)) := rfl

theorem neg_emod_secp (y : Nat) (hy : y < secpP) :
    ((-(y : Int)) % (secpP : Int)).toNat = (secpP - y) % secpP := by
  simp only [secpP] at hy ⊢
  omega

theorem candY_lt (x : Nat) : candY x < secpP :=
  pow_mod_lt _ _ _ (by decide)

theorem secpP_base_eq (x : Nat) :
    (pow_mod x 3 secpP + 7) % secpP = (x ^ 3 + 7) % secpP := by
  rw [pow_mod_pos_eq x 3 secpP (by decide) (by decide)]
  have h7 : 7 % secpP = 7 := Nat.mod_eq_of_lt (by decide)
  calc (x ^ 3 % secpP + 7) % secpP
      = (x ^ 3 % secpP + 7 % secpP) % secpP := by rw [h7]
    _ = (x ^ 3 + 7) % secpP := (Nat.add_mod _ _ _).symm

theorem candY_eq_pow (x : Nat) :
    candY x = ((x ^ 3 + 7) % secpP) ^ ((secpP + 1) / 4) % secpP := by
  unfold candY
  rw [secpP_base_eq, pow_mod_pos_eq _ _ _ (by decide) (by decide)]

theorem compress_of_64 (u : List Nat) (hlen : u.length = 64) :
    compress_pubkey u = ((u.getLastD 0 &&& 1) + 2) :: u.take 32 := by
  unfold compress_pubkey
  rw [if_neg (by omega)]

theorem compress_of_65 (u : List Nat) (hlen : u.length = 65) :
    compress_pubkey u =
      (((u.drop 1).getLastD 0 &&& 1) + 2) :: (u.drop 1).take 32 := by
  unfold compress_pubkey
  rw [if_pos hlen]

theorem getLastD_append_toBytes32 (l : List Nat) (v : Nat) :
    (l ++ toBytesBE 32 v).getLastD 0 = v % 256 := by
  show (l ++ (toBytesBE 31 (v / 256) ++ [v % 256])).getLastD 0 = v % 256
  rw [← List.append_assoc]
  exact getLastD_concat_nat _ _ _

theorem take32_toBytes_append (x : Nat) (l : List Nat) :
    (toBytesBE 32 x ++ l).take 32 = toBytesBE 32 x := by
  have h := take_length_append (toBytesBE 32 x) l
  rwa [toBytesBE_length] at h

/-- C5 (counterexample): on the 33-byte input with invalid prefix byte 0x00,
`uncompress_pubkey` does not fail as the claim demands (the spec-modelled
checked variant returns `none`); it silently returns a structurally valid
64-byte result. -/
theorem C5_counterexample :
    some (uncompress_pubkey (0 :: List.replicate 32 1)) ≠
      uncompressChecked (0 :: List.replicate 32 1) ∧
    (uncompress_pubkey (0 :: List.replicate 32 1)).length = 64 := by
  constructor
  · simp [uncompressChecked]
  · rw [show (0 :: List.replicate 32 1) = 0 :: List.replicate 32 (1 : Nat) from rfl,
      uncompress_pubkey_cons]
    simp [toBytesBE_length]

/-- C5 (amended): for every 33-byte input whose first byte is neither 0x02
nor 0x03, `uncompress_pubkey` does not fail: the parity comparison
`y % 2 != prefix - 2` is always true (the Python parity target is outside
{0, 1}), so it returns the 64-byte concatenation of x and the mod-p negation
of the square-root candidate. -/
theorem C5_amended (b : Nat) (xs : List Nat) (h2 : b ≠ 2) (h3 : b ≠ 3)
    (_hlen : xs.length = 32) (_hbytes : ∀ c ∈ xs, c < 256) :
    uncompress_pubkey (b :: xs) =
      toBytesBE 32 (fromBytesBE xs) ++
        toBytesBE 32
          ((secpP -
            ((fromBytesBE xs ^ 3 + 7) % secpP) ^ ((secpP + 1) / 4) % secpP) %
            secpP) ∧
    (uncompress_pubkey (b :: xs)).length = 64 := by
  constructor
  · rw [uncompress_pubkey_cons]
    have hcond : ((candY (fromBytesBE xs) % 2 : Nat) : Int) ≠ (b : Int) - 2 := by
      have hm : candY (fromBytesBE xs) % 2 < 2 := Nat.mod_lt _ (by omega)
      omega
    rw [if_pos hcond, neg_emod_secp _ (candY_lt _), candY_eq_pow]
  · rw [uncompress_pubkey_cons]
    simp [toBytesBE_length]

/-- C5 (amended, witness): concrete instantiation at prefix byte 0. -/
theorem C5_witness :
    ((0 : Nat) ≠ 2 ∧ (0 : Nat) ≠ 3 ∧ (List.replicate 32 (1 : Nat)).length = 32 ∧
      (∀ c ∈ List.replicate 32 (1 : Nat), c < 256)) ∧
    uncompress_pubkey (0 :: List.replicate 32 1) =
      toBytesBE 32 (fromBytesBE (List.replicate 32 1)) ++
        toBytesBE 32
          ((secpP -
            ((fromBytesBE (List.replicate 32 1) ^ 3 + 7) % secpP) ^
              ((secpP + 1) / 4) % secpP) % secpP) :=
  ⟨⟨by decide, by decide, by decide, by decide⟩,
    (C5_amended 0 (List.replicate 32 1) (by decide) (by decide) (by decide)
      (by decide)).1⟩

/-- C6: for every 33-byte compressed key with prefix 0x02 or 0x03,
`uncompress_pubkey` returns the 64-byte concatenation of the 32-byte
big-endian x and the 32-byte big-endian adjusted square root of
`(x^3 + 7) mod p`, exactly as the specification's formula `specSqrtY`
describes (the replacement value `p - y` is its mod-p residue), with no
on-curve validity check: the result is produced for every x. -/
theorem C6_uncompress_formula (b : Nat) (xs : List Nat) (hb : b = 2 ∨ b = 3)
    (_hlen : xs.length = 32) (_hbytes : ∀ c ∈ xs, c < 256) :
    uncompress_pubkey (b :: xs) =
      toBytesBE 32 (fromBytesBE xs) ++
        toBytesBE 32 (specSqrtY b (fromBytesBE xs)) ∧
    (uncompress_pubkey (b :: xs)).length = 64 := by
  constructor
  · rw [uncompress_pubkey_cons]
    have hyval : specSqrtY b (fromBytesBE xs) =
        if candY (fromBytesBE xs) % 2 ≠ b - 2 then
          (secpP - candY (fromBytesBE xs)) % secpP
        else candY (fromBytesBE xs) := by
      simp only [specSqrtY, ← candY_eq_pow]
    have hiff : (((candY (fromBytesBE xs) % 2 : Nat) : Int) ≠ (b : Int) - 2) ↔
        (candY (fromBytesBE xs) % 2 ≠ b - 2) := by
      rcases hb with h | h <;> subst h <;> omega
    suffices h : (if ((candY (fromBytesBE xs) % 2 : Nat) : Int) ≠ (b : Int) - 2 then
        ((-(candY (fromBytesBE xs) : Int)) % (secpP : Int)).toNat
      else candY (fromBytesBE xs)) = specSqrtY b (fromBytesBE xs) by rw [h]
    rw [hyval]
    by_cases hc : candY (fromBytesBE xs) % 2 ≠ b - 2
    · rw [if_pos (hiff.mpr hc), if_pos hc, neg_emod_secp _ (candY_lt _)]
    · rw [if_neg (fun h => hc (hiff.mp h)), if_neg hc]
  · rw [uncompress_pubkey_cons, List.length_append, toBytesBE_length,
      toBytesBE_length]

/-- C6 (witness): concrete instantiation at prefix 0x02. -/
theorem C6_witness :
    (((2 : Nat) = 2 ∨ (2 : Nat) = 3) ∧ (List.replicate 32 (7 : Nat)).length = 32 ∧
      (∀ c ∈ List.replicate 32 (7 : Nat), c < 256)) ∧
    uncompress_pubkey (2 :: List.replicate 32 7) =
      toBytesBE 32 (fromBytesBE (List.replicate 32 7)) ++
        toBytesBE 32 (specSqrtY 2 (fromBytesBE (List.replicate 32 7))) :=
  ⟨⟨Or.inl rfl, by decide, by decide⟩,
    (C6_uncompress_formula 2 (List.replicate 32 7) (Or.inl rfl) (by decide)
      (by decide)).1⟩

/-- C7: `compress_pubkey` and `uncompress_pubkey` are mutual inverses on
their valid domains.  Validity is phrased computationally, which over the
secp256k1 prime is equivalent to the claim's wording: for the compressed
direction, the square-root candidate actually squares back to
`(x^3 + 7) mod p` (that is, x is the abscissa of a curve point), and for
prefix 0x03 the curve point is not the degenerate `y = 0` one; for the
uncompressed direction, the stored y is one of the two mod-p square roots
the decompression formula can produce. -/
theorem C7_compress_uncompress_inverse (b : Nat) (xs Xb Yb : List Nat)
    (hb : b = 2 ∨ b = 3) (hxl : xs.length = 32) (hxb : ∀ c ∈ xs, c < 256)
    (hQR : candY (fromBytesBE xs) * candY (fromBytesBE xs) % secpP =
      (pow_mod (fromBytesBE xs) 3 secpP + 7) % secpP)
    (hA : b = 2 ∨ (pow_mod (fromBytesBE xs) 3 secpP + 7) % secpP ≠ 0)
    (hXl : Xb.length = 32) (hXb : ∀ c ∈ Xb, c < 256)
    (hYl : Yb.length = 32) (hYb : ∀ c ∈ Yb, c < 256)
    (hYlt : fromBytesBE Yb < secpP)
    (hRoot : candY (fromBytesBE Xb) = fromBytesBE Yb ∨
      candY (fromBytesBE Xb) = secpP - fromBytesBE Yb) :
    compress_pubkey (uncompress_pubkey (b :: xs)) = b :: xs ∧
    uncompress_pubkey (compress_pubkey (4 :: (Xb ++ Yb))) = Xb ++ Yb := by
  constructor
  · -- compressed key, decompress then compress
    rw [uncompress_pubkey_cons]
    have hy2 : (if ((candY (fromBytesBE xs) % 2 : Nat) : Int) ≠ (b : Int) - 2 then
        ((-(candY (fromBytesBE xs) : Int)) % (secpP : Int)).toNat
      else candY (fromBytesBE xs)) % 2 + 2 = b := by
      have hlt := candY_lt (fromBytesBE xs)
      by_cases hc : ((candY (fromBytesBE xs) % 2 : Nat) : Int) ≠ (b : Int) - 2
      · rw [if_pos hc, neg_emod_secp _ hlt]
        have hne : candY (fromBytesBE xs) ≠ 0 := by
          rcases hb with h2 | h3
          · subst h2; omega
          · subst h3
            rcases hA with h2' | ha
            · omega
            · intro h0
              rw [h0] at hQR
              have h00 : (0 : Nat) * 0 % secpP = 0 := by simp
              rw [h00] at hQR
              exact ha hQR.symm
        have hsublt : secpP - candY (fromBytesBE xs) < secpP := by
          simp only [secpP] at hne hlt ⊢
          omega
        rw [Nat.mod_eq_of_lt hsublt]
        simp only [secpP] at hlt hc ⊢
        omega
      · rw [if_neg hc]
        omega
    have hlen64 : (toBytesBE 32 (fromBytesBE xs) ++
        toBytesBE 32 (if ((candY (fromBytesBE xs) % 2 : Nat) : Int) ≠ (b : Int) - 2 then
          ((-(candY (fromBytesBE xs) : Int)) % (secpP : Int)).toNat
        else candY (fromBytesBE xs))).length = 64 := by
      rw [List.length_append, toBytesBE_length, toBytesBE_length]
    rw [compress_of_64 _ hlen64, getLastD_append_toBytes32, take32_toBytes_append]
    have hand : (if ((candY (fromBytesBE xs) % 2 : Nat) : Int) ≠ (b : Int) - 2 then
        ((-(candY (fromBytesBE xs) : Int)) % (secpP : Int)).toNat
      else candY (fromBytesBE xs)) % 256 &&& 1 =
        (if ((candY (fromBytesBE xs) % 2 : Nat) : Int) ≠ (b : Int) - 2 then
          ((-(candY (fromBytesBE xs) : Int)) % (secpP : Int)).toNat
        else candY (fromBytesBE xs)) % 2 := by
      rw [Nat.and_one_is_mod]
      omega
    rw [hand, hy2, toBytesBE_fromBytesBE 32 xs hxl hxb]
  · -- uncompressed key, compress then decompress
    have hXeq : toBytesBE 32 (fromBytesBE Xb) = Xb :=
      toBytesBE_fromBytesBE 32 Xb hXl hXb
    have hYeq : toBytesBE 32 (fromBytesBE Yb) = Yb :=
      toBytesBE_fromBytesBE 32 Yb hYl hYb
    have hlen65 : (4 :: (Xb ++ Yb)).length = 65 := by
      simp [List.length_append, hXl, hYl]
    rw [compress_of_65 _ hlen65]
    have hdrop : (4 :: (Xb ++ Yb)).drop 1 = Xb ++ Yb := rfl
    rw [hdrop]
    have hlast : (Xb ++ Yb).getLastD 0 = fromBytesBE Yb % 256 := by
      conv_lhs => rw [← hYeq]
      exact getLastD_append_toBytes32 _ _
    have htake : (Xb ++ Yb).take 32 = Xb := by
      have h := take_length_append Xb Yb
      rwa [hXl] at h
    rw [hlast, htake]
    have hand2 : fromBytesBE Yb % 256 &&& 1 = fromBytesBE Yb % 2 := by
      rw [Nat.and_one_is_mod]
      omega
    rw [hand2, uncompress_pubkey_cons, hXeq]
    suffices hY2 : (if ((candY (fromBytesBE Xb) % 2 : Nat) : Int) ≠
        ((fromBytesBE Yb % 2 + 2 : Nat) : Int) - 2 then
        ((-(candY (fromBytesBE Xb) : Int)) % (secpP : Int)).toNat
      else candY (fromBytesBE Xb)) = fromBytesBE Yb by
      rw [hY2, hYeq]
    have hlt := candY_lt (fromBytesBE Xb)
    rcases hRoot with hr | hr
    · have hcond : ¬(((candY (fromBytesBE Xb) % 2 : Nat) : Int) ≠
          ((fromBytesBE Yb % 2 + 2 : Nat) : Int) - 2) := by
        rw [hr]
        omega
      rw [if_neg hcond, hr]
    · have hYpos : 0 < fromBytesBE Yb := by
        rcases Nat.eq_zero_or_pos (fromBytesBE Yb) with h0 | h1
        · rw [h0, Nat.sub_zero] at hr
          omega
        · exact h1
      have hcond : ((candY (fromBytesBE Xb) % 2 : Nat) : Int) ≠
          ((fromBytesBE Yb % 2 + 2 : Nat) : Int) - 2 := by
        rw [hr]
        simp only [secpP] at hYlt ⊢
        omega
      rw [if_pos hcond, neg_emod_secp _ hlt, hr]
      have he : secpP - (secpP - fromBytesBE Yb) = fromBytesBE Yb := by
        simp only [secpP] at hYlt ⊢
        omega
      rw [he, Nat.mod_eq_of_lt hYlt]

/-- C7 (witness): concrete instantiation at the secp256k1 generator point,
whose compressed form has prefix 0x02. -/
theorem C7_witness :
    (((2 : Nat) = 2 ∨ (2 : Nat) = 3) ∧ genXBytes.length = 32 ∧
      (∀ c ∈ genXBytes, c < 256) ∧
      candY (fromBytesBE genXBytes) * candY (fromBytesBE genXBytes) % secpP =
        (pow_mod (fromBytesBE genXBytes) 3 secpP + 7) % secpP ∧
      genYBytes.length = 32 ∧ (∀ c ∈ genYBytes, c < 256) ∧
      fromBytesBE genYBytes < secpP ∧
      candY (fromBytesBE genXBytes) = fromBytesBE genYBytes) ∧
    compress_pubkey (uncompress_pubkey (2 :: genXBytes)) = 2 :: genXBytes ∧
    uncompress_pubkey (compress_pubkey (4 :: (genXBytes ++ genYBytes))) =
      genXBytes ++ genYBytes :=
  ⟨⟨Or.inl rfl, by decide, by decide, by decide, by decide, by decide,
      by decide, by decide⟩,
    C7_compress_uncompress_inverse 2 genXBytes genXBytes genYBytes (Or.inl rfl)
      (by decide) (by decide) (by decide) (Or.inl rfl) (by decide) (by decide)
      (by decide) (by decide) (by decide) (Or.inl (by decide))⟩

/-! ## Sign and recover round trip -/

theorem witnessEngine_contract : EngineContract witnessEngine := by
  intro digest privkey
  show witnessEngine.recover ((((0 : Int) + 1) % 2),
      (fromBytesBE privkey : Int), 0) digest = [fromBytesBE privkey]
  norm_num [witnessEngine]

/-- C1: for every message, private key, hash function and external engine
satisfying the specified primitive contract, recovering the address from the
signature produced by `sign` over the digest of the message gives the same
address as deriving it directly from the private key. -/
theorem C1_sign_recover_roundtrip (keccak : List Nat → List Nat)
    (E : EcdsaEngine) (hE : EngineContract E) (m privkey : List Nat) :
    recover_address keccak E (sign E m privkey keccak) (keccak m) =
      priv_to_addr keccak E privkey := by
  unfold recover_address priv_to_addr recover_pubkey sign sign_hash priv_to_pub
  exact congrArg (pub_to_addr keccak) (hE (keccak m) privkey)

/-- C1 (witness): concrete engine and hash instantiation. -/
theorem C1_witness :
    EngineContract witnessEngine ∧
    recover_address idHash witnessEngine
        (sign witnessEngine [1, 2] [3, 4] idHash) (idHash [1, 2]) =
      priv_to_addr idHash witnessEngine [3, 4] :=
  ⟨witnessEngine_contract,
    C1_sign_recover_roundtrip idHash witnessEngine witnessEngine_contract
      [1, 2] [3, 4]⟩

/-- C2: `recover_pubkey` applies the normalization `v' = (v + 1) mod 2`
before invoking the external recovery primitive, while `sign_hash` passes
the signer's output through unchanged. -/
theorem C2_normalization_paths :
    (∀ (E : EcdsaEngine) (s : EthSig) (digest : List Nat),
      recover_pubkey E s digest =
        E.recover (((s.1 + 1) % 2 : Int), s.2.1, s.2.2) digest) ∧
    (∀ (E : EcdsaEngine) (digest privkey : List Nat),
      sign_hash E digest privkey = E.signHash digest privkey) :=
  ⟨fun _ _ _ => rfl, fun _ _ _ => rfl⟩

/-- C3 (counterexample): with a digest-sensitive engine, the identity hash
parameter and a constant hash-function argument, `sign_message` disagrees
with the claimed behavior in which the hash-function argument is applied to
the message: the source ignores the argument entirely.  Moreover the header
literal has 26 bytes, not 25. -/
theorem C3_counterexample :
    sign_message idHash digestEngine [7] [] constNilHash ≠
      sign_message_spec idHash digestEngine [7] [] constNilHash ∧
    ethMessageHeader.length ≠ 25 := by
  constructor
  · decide
  · decide

/-- C3 (amended): `sign_message` ignores its hash-function argument: it
always signs the keccak256 digest of the 26-byte literal
`b'\x19Ethereum Signed Message:\n'` followed by the raw message bytes. -/
theorem C3_amended (keccak : List Nat → List Nat) (E : EcdsaEngine)
    (m privkey : List Nat) (algo algo₂ : List Nat → List Nat) :
    sign_message keccak E m privkey algo =
      sign_hash E (keccak (ethMessageHeader ++ m)) privkey ∧
    sign_message keccak E m privkey algo =
      sign_message keccak E m privkey algo₂ ∧
    ethMessageHeader.length = 26 :=
  ⟨rfl, rfl, rfl⟩

/-! ## Address rendering -/

/-- C4 (counterexample): `pub_to_addr` hashes its input exactly as given and
never fails, contradicting the claim on both points: on a well-formed 65-byte
key it does not strip the 0x04 prefix before hashing (with a length-sensitive
hash the addresses differ), and on the malformed empty input it still returns
an address instead of failing. -/
theorem C4_counterexample :
    some (pub_to_addr lenHash (4 :: List.replicate 64 0)) ≠
      pub_to_addr_spec lenHash (4 :: List.replicate 64 0) ∧
    some (pub_to_addr lenHash []) ≠ pub_to_addr_spec lenHash [] := by
  constructor
  · decide
  · decide

/-- C4 (amended): `pub_to_addr` renders `0x` followed by the lowercase hex
of the last 20 bytes of the keccak256 digest of its input bytes exactly as
given (no 0x04-prefix stripping, no validation, no failure path); on 64-byte
inputs, the only shape its callers produce, it agrees with the
specification's formula. -/
theorem C4_amended (keccak : List Nat → List Nat) (pub : List Nat) :
    pub_to_addr keccak pub = "0x" ++ bytesToHex (lastN 20 (keccak pub)) ∧
    (pub.length = 64 →
      some (pub_to_addr keccak pub) = pub_to_addr_spec keccak pub) := by
  refine ⟨rfl, fun h => ?_⟩
  simp [pub_to_addr_spec, pub_to_addr, h]

/-- C4 (witness): concrete instantiation at a 64-byte input. -/
theorem C4_witness :
    (List.replicate 64 (0 : Nat)).length = 64 ∧
    some (pub_to_addr lenHash (List.replicate 64 0)) =
      pub_to_addr_spec lenHash (List.replicate 64 0) :=
  ⟨by decide, (C4_amended lenHash (List.replicate 64 0)).2 (by decide)⟩

/-! ## Bit length and minimal big-endian encodings -/

theorem bitLenFuel_zero : ∀ f : Nat, bitLenFuel f 0 = 0 := by
  intro f
  cases f <;> rfl

theorem bitLenFuel_pos : ∀ (f n : Nat), n ≠ 0 → n < f → 1 ≤ bitLenFuel f n := by
  intro f n h0 hf
  cases f with
  | zero => omega
  | succ g => simp [bitLenFuel, h0]

theorem bitLenFuel_bounds :
    ∀ (f n : Nat), n < f →
      n < 2 ^ bitLenFuel f n ∧ (n ≠ 0 → 2 ^ (bitLenFuel f n - 1) ≤ n) := by
  intro f
  induction f with
  | zero => intro n h; omega
  | succ g ih =>
    intro n hn
    by_cases h0 : n = 0
    · subst h0
      simp [bitLenFuel]
    · have hrec : bitLenFuel (g + 1) n = bitLenFuel g (n / 2) + 1 := by
        simp [bitLenFuel, h0]
      have hhalf : n / 2 < g := by omega
      obtain ⟨hub, hlb⟩ := ih (n / 2) hhalf
      rw [hrec]
      constructor
      · have h2 : 2 ^ (bitLenFuel g (n / 2) + 1) = 2 * 2 ^ bitLenFuel g (n / 2) := by
          rw [pow_succ]
          ring
        omega
      · intro _
        have hsimp : bitLenFuel g (n / 2) + 1 - 1 = bitLenFuel g (n / 2) := by omega
        rw [hsimp]
        by_cases hh0 : n / 2 = 0
        · have hn1 : n = 1 := by omega
          subst hn1
          rw [show (1 : Nat) / 2 = 0 from rfl, bitLenFuel_zero]
          simp
        · have hlow := hlb hh0
          have hge1 : 1 ≤ bitLenFuel g (n / 2) := bitLenFuel_pos g (n / 2) hh0 hhalf
          have h2 : 2 ^ (bitLenFuel g (n / 2) - 1 + 1) =
              2 * 2 ^ (bitLenFuel g (n / 2) - 1) := by
            rw [pow_succ]
            ring
          have hsucc : bitLenFuel g (n / 2) - 1 + 1 = bitLenFuel g (n / 2) := by omega
          rw [← hsucc]
          omega

theorem bitLen_lt (n : Nat) : n < 2 ^ bitLen n :=
  (bitLenFuel_bounds (n + 1) n (by omega)).1

theorem bitLen_le (n : Nat) (h : n ≠ 0) : 2 ^ (bitLen n - 1) ≤ n :=
  (bitLenFuel_bounds (n + 1) n (by omega)).2 h

theorem bitLen_pos (n : Nat) (h : n ≠ 0) : 1 ≤ bitLen n :=
  bitLenFuel_pos (n + 1) n h (by omega)

theorem pow256 (m : Nat) : (256 : Nat) ^ m = 2 ^ (8 * m) := by
  rw [show (256 : Nat) = 2 ^ 8 from rfl, ← pow_mul]

theorem fromBytesBE_toBytesBE (len : Nat) :
    ∀ n : Nat, fromBytesBE (toBytesBE len n) = n % 256 ^ len := by
  induction len with
  | zero =>
    intro n
    simp [toBytesBE, fromBytesBE, Nat.mod_one]
  | succ m ih =>
    intro n
    rw [show toBytesBE (m + 1) n = toBytesBE m (n / 256) ++ [n % 256] from rfl]
    rw [fromBytesBE_concat, ih]
    rw [pow_succ']
    rw [Nat.mod_mul]
    omega

theorem headD_append_left (l₁ l₂ : List Nat) (h : l₁ ≠ []) (d : Nat) :
    (l₁ ++ l₂).headD d = l₁.headD d := by
  cases l₁ with
  | nil => exact absurd rfl h
  | cons a t => rfl

theorem toBytesBE_headD :
    ∀ (len n : Nat), (toBytesBE (len + 1) n).headD 0 = n / 256 ^ len % 256 := by
  intro len
  induction len with
  | zero =>
    intro n
    simp [toBytesBE]
  | succ m ih =>
    intro n
    rw [show toBytesBE (m + 1 + 1) n = toBytesBE (m + 1) (n / 256) ++ [n % 256]
      from rfl]
    have hne : toBytesBE (m + 1) (n / 256) ≠ [] := by
      intro hnil
      have hl := toBytesBE_length (m + 1) (n / 256)
      rw [hnil] at hl
      simp at hl
    rw [headD_append_left _ _ hne, ih (n / 256), Nat.div_div_eq_div_mul]
    have hp := pow_succ (256 : Nat) m
    congr 2
    omega

theorem derIntBytes_from (n : Nat) : fromBytesBE (derIntBytes n) = n := by
  unfold derIntBytes
  rw [fromBytesBE_toBytesBE]
  apply Nat.mod_eq_of_lt
  calc n < 2 ^ bitLen n := bitLen_lt n
    _ ≤ 2 ^ (8 * ((bitLen n + 7) / 8)) := Nat.pow_le_pow_right (by norm_num) (by omega)
    _ = 256 ^ ((bitLen n + 7) / 8) := (pow256 _).symm

theorem derIntBytes_no_leading_zero (n : Nat) (h : n ≠ 0) :
    (derIntBytes n).headD 0 ≠ 0 := by
  have hbl : 1 ≤ bitLen n := bitLen_pos n h
  have hlen : (bitLen n + 7) / 8 = ((bitLen n + 7) / 8 - 1) + 1 := by omega
  set m := (bitLen n + 7) / 8 - 1 with hm
  unfold derIntBytes
  rw [hlen, toBytesBE_headD]
  have hlow : 256 ^ m ≤ n := by
    calc (256 : Nat) ^ m = 2 ^ (8 * m) := pow256 m
      _ ≤ 2 ^ (bitLen n - 1) := Nat.pow_le_pow_right (by norm_num) (by omega)
      _ ≤ n := bitLen_le n h
  have hhigh : n < 256 * 256 ^ m := by
    calc n < 2 ^ bitLen n := bitLen_lt n
      _ ≤ 2 ^ (8 * m + 8) := Nat.pow_le_pow_right (by norm_num) (by omega)
      _ = 256 ^ (m + 1) := by
          rw [pow256 (m + 1), Nat.mul_add, Nat.mul_one]
      _ = 256 * 256 ^ m := pow_succ' 256 m
  have hdiv1 : 1 ≤ n / 256 ^ m := (Nat.one_le_div_iff (by positivity)).mpr hlow
  have hdiv2 : n / 256 ^ m < 256 := (Nat.div_lt_iff_lt_mul (by positivity)).mpr
    (by omega)
  rw [Nat.mod_eq_of_lt hdiv2]
  omega

theorem derIntBytes_minimal (n : Nat) :
    derIntBytes n = [] ∨ (derIntBytes n).headD 0 ≠ 0 := by
  by_cases h : n = 0
  · left
    rw [h]
    rfl
  · right
    exact derIntBytes_no_leading_zero n h

theorem der_minimal_int_ok (n : Int) (h : 0 ≤ n) :
    der_minimal_int n = Except.ok (derIntBytes n.toNat) := by
  unfold der_minimal_int
  rw [if_neg (by omega)]

theorem der_minimal_int_neg (n : Int) (h : n < 0) :
    der_minimal_int n = Except.error "Negative number in signature" := by
  unfold der_minimal_int
  rw [if_pos h]

theorem sig_to_der_ok (v r s : Int) (hr : 0 ≤ r) (hs : 0 ≤ s) :
    sig_to_der (v, r, s) =
      Except.ok ([0x30,
        (2 + (derIntBytes r.toNat).length) + (2 + (derIntBytes s.toNat).length),
        0x02, (derIntBytes r.toNat).length] ++ derIntBytes r.toNat ++
        ([0x02, (derIntBytes s.toNat).length] ++ derIntBytes s.toNat)) := by
  unfold sig_to_der
  rw [der_minimal_int_ok r hr, der_minimal_int_ok s hs]
  simp [List.length_append, List.append_assoc]
  omega

/-- C8: for non-negative r and s, `sig_to_der` emits exactly
`0x30 | total | 0x02 | len(r) | r | 0x02 | len(s) | s` where each integer is
its minimal big-endian encoding (it decodes back to the integer and carries
no leading zero byte), v is never part of the output, and a negative r or s
fails with the encoding error. -/
theorem C8_sig_to_der_layout :
    (∀ v r s : Int, 0 ≤ r → 0 ≤ s →
      sig_to_der (v, r, s) =
        Except.ok ([0x30,
          (2 + (derIntBytes r.toNat).length) +
            (2 + (derIntBytes s.toNat).length),
          0x02, (derIntBytes r.toNat).length] ++ derIntBytes r.toNat ++
          ([0x02, (derIntBytes s.toNat).length] ++ derIntBytes s.toNat)) ∧
      fromBytesBE (derIntBytes r.toNat) = r.toNat ∧
      (derIntBytes r.toNat = [] ∨ (derIntBytes r.toNat).headD 0 ≠ 0) ∧
      fromBytesBE (derIntBytes s.toNat) = s.toNat ∧
      (derIntBytes s.toNat = [] ∨ (derIntBytes s.toNat).headD 0 ≠ 0) ∧
      (∀ v₂ : Int, sig_to_der (v₂, r, s) = sig_to_der (v, r, s))) ∧
    (∀ v r s : Int, r < 0 ∨ s < 0 →
      sig_to_der (v, r, s) = Except.error "Negative number in signature") := by
  constructor
  · intro v r s hr hs
    exact ⟨sig_to_der_ok v r s hr hs, derIntBytes_from _, derIntBytes_minimal _,
      derIntBytes_from _, derIntBytes_minimal _, fun _ => rfl⟩
  · intro v r s h
    by_cases hr : r < 0
    · unfold sig_to_der
      rw [der_minimal_int_neg r hr]
    · have hs : s < 0 := by omega
      unfold sig_to_der
      rw [der_minimal_int_ok r (by omega), der_minimal_int_neg s hs]

/-- C8 (witness): concrete signatures on both the success and failure
paths. -/
theorem C8_witness :
    ((0 : Int) ≤ 1000 ∧ (0 : Int) ≤ 1) ∧
    sig_to_der (5, 1000, 1) =
      Except.ok ([0x30,
        (2 + (derIntBytes (1000 : Int).toNat).length) +
          (2 + (derIntBytes (1 : Int).toNat).length),
        0x02, (derIntBytes (1000 : Int).toNat).length] ++
        derIntBytes (1000 : Int).toNat ++
        ([0x02, (derIntBytes (1 : Int).toNat).length] ++
          derIntBytes (1 : Int).toNat)) ∧
    sig_to_der (0, -1, 0) = Except.error "Negative number in signature" :=
  ⟨⟨by decide, by decide⟩,
    (C8_sig_to_der_layout.1 5 1000 1 (by decide) (by decide)).1,
    C8_sig_to_der_layout.2 0 (-1) 0 (Or.inl (by decide))⟩

/-- C9: `pow_mod` computes modular exponentiation: for modulus above 1 it
returns `base ^ exponent % modulus`, which is below the modulus, and a zero
exponent yields 1 for every base and modulus. -/
theorem C9_pow_mod_correct :
    (∀ x y z : Nat, 1 < z → pow_mod x y z = x ^ y % z ∧ pow_mod x y z < z) ∧
    (∀ x z : Nat, pow_mod x 0 z = 1) := by
  constructor
  · intro x y z hz
    refine ⟨?_, pow_mod_lt x y z hz⟩
    rw [pow_mod_eq x y z (by omega)]
    by_cases h : y = 0
    · subst h
      simp [Nat.mod_eq_of_lt hz]
    · rw [if_neg h]
  · intro x z
    rfl

/-- C9 (witness): concrete evaluation. -/
theorem C9_witness :
    1 < 7 ∧ (pow_mod 2 10 7 = 2 ^ 10 % 7 ∧ pow_mod 2 10 7 < 7) :=
  ⟨by decide, C9_pow_mod_correct.1 2 10 7 (by decide)⟩

/-- C10: a zero r (or s) component does not make `sig_to_der` raise: the
zero integer is encoded as the two bytes `0x02 0x00` with no content bytes,
so zero components are silently accepted. -/
theorem C10_zero_components :
    (∀ v s : Int, 0 ≤ s →
      sig_to_der (v, 0, s) =
        Except.ok ([0x30, 4 + (derIntBytes s.toNat).length, 0x02, 0x00] ++
          ([0x02, (derIntBytes s.toNat).length] ++ derIntBytes s.toNat))) ∧
    (∀ v r : Int, 0 ≤ r →
      sig_to_der (v, r, 0) =
        Except.ok ([0x30, 4 + (derIntBytes r.toNat).length, 0x02,
          (derIntBytes r.toNat).length] ++ derIntBytes r.toNat ++
          [0x02, 0x00])) := by
  constructor
  · intro v s hs
    rw [sig_to_der_ok v 0 s (by omega) hs]
    rw [show derIntBytes (0 : Int).toNat = [] from rfl]
    simp
    omega
  · intro v r hr
    rw [sig_to_der_ok v r 0 hr (by omega)]
    rw [show derIntBytes (0 : Int).toNat = [] from rfl]
    simp
    omega

/-- C10 (witness): concrete zero components on both sides. -/
theorem C10_witness :
    ((0 : Int) ≤ 5) ∧
    sig_to_der (1, 0, 5) =
      Except.ok ([0x30, 4 + (derIntBytes (5 : Int).toNat).length, 0x02, 0x00] ++
        ([0x02, (derIntBytes (5 : Int).toNat).length] ++
          derIntBytes (5 : Int).toNat)) ∧
    sig_to_der (1, 5, 0) =
      Except.ok ([0x30, 4 + (derIntBytes (5 : Int).toNat).length, 0x02,
        (derIntBytes (5 : Int).toNat).length] ++ derIntBytes (5 : Int).toNat ++
        [0x02, 0x00]) :=
  ⟨by decide, C10_zero_components.1 1 5 (by decide),
    C10_zero_components.2 1 5 (by decide)⟩
